import Mathlib

/-!
Verification of the Quantum interval library (core file: the corrected copy of
`quantum.js`, whose `QuantumSet` exposes `compare`, `monotonic`, `intersects`,
`merge`, `disjoint` and the aggregate duration queries).

Modelling notes.

Numbers: all reference inputs are integral milliseconds, so interval bounds
are modelled as `Int`.

The constructor `function Quantum(start, stop)` stores `(start || 0)` and
`(stop || 0)`.  The dynamically typed arguments are modelled by a small
JavaScript value universe (`JSValue`) with the standard truthiness table, and
the `||` operator by `jsOr`.  The numeric core below works over `Quantum`
with `Int` fields, the construction-time behaviour over `QuantumJS`.

Sorting: `QuantumSet.prototype.monotonic` copies the backing array with
`slice()` and sorts the copy with the boolean comparator
`compare(q1, q2) = (q1.start >= q2.start)` (coerced to `1`/`0` by the
engine).  ECMAScript leaves the order produced by such an inconsistent
comparator implementation-defined up to the placement of equal-start
elements; every outcome consistent with the comparator is non-decreasing by
`start`.  We model it as a stable insertion sort by `start`
(`List.insertionSort qle`): an element is placed before the first element
whose start is at least its own, so equal-start elements keep their input
order.

Mutation: JavaScript methods can mutate `this._set`.  Methods are therefore
modelled in state-passing style over the record `QuantumSet`, returning the
result together with the post-state.  In the core file `monotonic` sorts a
`slice()` copy and `disjoint` only writes the local variable `_set`, so both
leave the backing sequence unchanged.
-/

/-- A time quantum between the given start and stop times, in milliseconds
(`function Quantum(start, stop)` with numeric arguments). -/
structure Quantum where
  start : Int
  stop : Int
  deriving DecidableEq

/-- `Quantum.prototype.millis`: the difference between stop and start. -/
def Quantum.millis (q : Quantum) : Int :=
  q.stop - q.start

/-- A `QuantumSet` holds a backing array `this._set` of Quantums. -/
structure QuantumSet where
  _set : List Quantum
  deriving DecidableEq

/-- `QuantumSet.prototype.compare`: whether the start time of `q1` is at
least that of `q2`. -/
def QuantumSet.compare (q1 q2 : Quantum) : Bool :=
  decide (q1.start ≥ q2.start)

/-- The ordering the modelled sort establishes: `a` precedes `b` when the
engine may place `a` at or before `b`, i.e. `compare a b` coerces to `0`
(`a.start < b.start`) or the starts tie. -/
def qle (a b : Quantum) : Prop :=
  a.start ≤ b.start

instance : DecidableRel qle :=
  fun a b => inferInstanceAs (Decidable (a.start ≤ b.start))

instance : IsTotal Quantum qle :=
  ⟨fun a b => Int.le_total a.start b.start⟩

instance : IsTrans Quantum qle :=
  ⟨fun _ _ _ h1 h2 => le_trans h1 h2⟩

/-- `QuantumSet.prototype.monotonic` (default comparator): sorts a `slice()`
copy of `this._set` and returns it; the backing sequence is untouched, which
the unchanged post-state records. -/
def QuantumSet.monotonicM (s : QuantumSet) : List Quantum × QuantumSet :=
  (List.insertionSort qle s._set, s)

/-- `QuantumSet.prototype.intersects`:
`((q1a <= q2a) && (q1B >= q2a)) || ((q2a <= q1a) && (q2B >= q1a))`. -/
def QuantumSet.intersects (q1 q2 : Quantum) : Bool :=
  (decide (q1.start ≤ q2.start) && decide (q1.stop ≥ q2.start)) ||
    (decide (q2.start ≤ q1.start) && decide (q2.stop ≥ q1.start))

/-- `QuantumSet.prototype.merge`: if the two Quantums intersect, a singleton
holding `new Quantum(MIN(q1.start, q2.start), MAX(q1.stop, q2.stop))`,
otherwise `[q1, q2]`. -/
def QuantumSet.merge (q1 q2 : Quantum) : List Quantum :=
  if QuantumSet.intersects q1 q2 then
    [⟨min q1.start q2.start, max q1.stop q2.stop⟩]
  else
    [q1, q2]

/-- The loop of `QuantumSet.prototype.disjoint`: `q` is the accumulator, the
list the remaining elements.  Each step computes `$set = merge(q, e)` and
`n = $set.length - 1`; if `n` is nonzero it emits `$set[0]`, and the
accumulator becomes `$set[n]` (the last element).  After the loop the
accumulator itself is emitted. -/
def QuantumSet.sweep (q : Quantum) : List Quantum → List Quantum
  | [] => [q]
  | e :: rest =>
    let s := QuantumSet.merge q e
    (if s.length - 1 ≠ 0 then [s.headD q] else []) ++
      QuantumSet.sweep (s.getLastD q) rest

/-- `QuantumSet.prototype.disjoint` on the backing list: when `mono` is
false the elements are first sorted via `monotonic`, otherwise `this._set`
is used as is; then the merge sweep runs from the first element.  (The code
reads `set[0]` unconditionally; the empty case is a documented precondition
violation and is mapped to the empty list, which no claim relies on.) -/
def QuantumSet.disjointL (mono : Bool) (st : List Quantum) : List Quantum :=
  let set := if mono then st else List.insertionSort qle st
  match set with
  | [] => []
  | q :: rest => QuantumSet.sweep q rest

/-- `QuantumSet.prototype.disjoint` in state-passing form: the method only
writes the local variable `_set`, never `this._set`, so the post-state
equals the pre-state. -/
def QuantumSet.disjointM (mono : Bool) (s : QuantumSet) : List Quantum × QuantumSet :=
  (QuantumSet.disjointL mono s._set, s)

/-- `QuantumSet.prototype.millis`: sum of `millis()` over the backing
elements. -/
def QuantumSet.millis (l : List Quantum) : Int :=
  l.foldl (fun acc q => acc + q.millis) 0

/-! ## The dynamic construction model (for the constructor claim) -/

/-- A small universe of JavaScript values: `undefined`, `null`, booleans,
(integral) numbers and strings (modelled as character lists). -/
inductive JSValue where
  | undef : JSValue
  | null : JSValue
  | bool : Bool → JSValue
  | num : Int → JSValue
  | str : List Char → JSValue
  deriving DecidableEq

/-- JavaScript truthiness for the modelled values: `undefined`, `null`,
`false`, `0` and the empty string are falsy, everything else truthy. -/
def JSValue.truthy : JSValue → Bool
  | .undef => false
  | .null => false
  | .bool b => b
  | .num n => decide (n ≠ 0)
  | .str s => decide (s ≠ [])

/-- The JavaScript `||` operator: the left operand if truthy, else the
right. -/
def jsOr (a b : JSValue) : JSValue :=
  if a.truthy then a else b

/-- A Quantum as constructed from arbitrary JavaScript values. -/
structure QuantumJS where
  start : JSValue
  stop : JSValue
  deriving DecidableEq

/-- `function Quantum(start, stop)`: `this.start = (start || 0);
this.stop = (stop || 0)`.  An omitted argument is `undefined`. -/
def mkQuantumJS (start stop : JSValue) : QuantumJS :=
  ⟨jsOr start (.num 0), jsOr stop (.num 0)⟩

/-! ## Shared lemmas -/

/-- Unfolding of `intersects` into its arithmetic formula. -/
theorem intersects_true_iff (a b : Quantum) :
    QuantumSet.intersects a b = true ↔
      ((a.start ≤ b.start ∧ a.stop ≥ b.start) ∨
        (b.start ≤ a.start ∧ b.stop ≥ a.start)) := by
  simp [QuantumSet.intersects]

theorem merge_of_intersects {q e : Quantum}
    (h : QuantumSet.intersects q e = true) :
    QuantumSet.merge q e = [⟨min q.start e.start, max q.stop e.stop⟩] := by
  simp [QuantumSet.merge, h]

theorem merge_of_not_intersects {q e : Quantum}
    (h : QuantumSet.intersects q e = false) :
    QuantumSet.merge q e = [q, e] := by
  simp [QuantumSet.merge, h]

theorem sweep_nil (q : Quantum) : QuantumSet.sweep q [] = [q] :=
  rfl

theorem sweep_cons_of_intersects {q e : Quantum} (rest : List Quantum)
    (h : QuantumSet.intersects q e = true) :
    QuantumSet.sweep q (e :: rest) =
      QuantumSet.sweep ⟨min q.start e.start, max q.stop e.stop⟩ rest := by
  simp [QuantumSet.sweep, merge_of_intersects h]

theorem sweep_cons_of_not_intersects {q e : Quantum} (rest : List Quantum)
    (h : QuantumSet.intersects q e = false) :
    QuantumSet.sweep q (e :: rest) = q :: QuantumSet.sweep e rest := by
  simp [QuantumSet.sweep, merge_of_not_intersects h]

/-- The first element the sweep emits is the accumulator, whose start is
pinned: merging never lowers it below `q.start` when every remaining
element starts at or after `q.start`. -/
theorem sweep_head : ∀ (rest : List Quantum) (q : Quantum),
    (∀ e ∈ rest, q.start ≤ e.start) →
    ∃ h t, QuantumSet.sweep q rest = h :: t ∧ h.start = q.start
  | [], q, _ => ⟨q, [], rfl, rfl⟩
  | e :: rest, q, hb => by
    have hqe : q.start ≤ e.start := hb e (List.mem_cons_self e rest)
    cases hi : QuantumSet.intersects q e with
    | true =>
      rw [sweep_cons_of_intersects rest hi]
      have hmin : min q.start e.start = q.start := min_eq_left hqe
      obtain ⟨h, t, heq, hst⟩ :=
        sweep_head rest ⟨min q.start e.start, max q.stop e.stop⟩
          (fun f hf => by
            simpa [hmin] using hb f (List.mem_cons_of_mem e hf))
      exact ⟨h, t, heq, by simpa [hmin] using hst⟩
    | false =>
      rw [sweep_cons_of_not_intersects rest hi]
      exact ⟨q, QuantumSet.sweep e rest, rfl, rfl⟩

/-- Main invariant of the sweep: starting from a well-formed accumulator and
a well-formed, pairwise-ordered remainder all starting at or after the
accumulator, the emitted sequence is ordered non-decreasing by start and
adjacent emitted elements do not intersect. -/
theorem sweep_good : ∀ (rest : List Quantum) (q : Quantum),
    q.start ≤ q.stop →
    (∀ e ∈ rest, e.start ≤ e.stop) →
    rest.Pairwise qle →
    (∀ e ∈ rest, q.start ≤ e.start) →
    List.Chain' qle (QuantumSet.sweep q rest) ∧
      List.Chain' (fun a c => QuantumSet.intersects a c = false)
        (QuantumSet.sweep q rest)
  | [], q, _, _, _, _ => by
    rw [sweep_nil]
    exact ⟨List.chain'_singleton q, List.chain'_singleton q⟩
  | e :: rest, q, hwq, hwall, hpw, hb => by
    have hqe : q.start ≤ e.start := hb e (List.mem_cons_self e rest)
    have hwe : e.start ≤ e.stop := hwall e (List.mem_cons_self e rest)
    have hpw' := List.pairwise_cons.mp hpw
    cases hi : QuantumSet.intersects q e with
    | true =>
      rw [sweep_cons_of_intersects rest hi]
      refine sweep_good rest ⟨min q.start e.start, max q.stop e.stop⟩
        ?_ (fun f hf => hwall f (List.mem_cons_of_mem e hf)) hpw'.2
        (fun f hf => le_trans (min_le_left _ _) (hb f (List.mem_cons_of_mem e hf)))
      exact le_trans (min_le_left _ _) (le_trans hwq (le_max_left _ _))
    | false =>
      rw [sweep_cons_of_not_intersects rest hi]
      have hni : ¬ ((q.start ≤ e.start ∧ q.stop ≥ e.start) ∨
          (e.start ≤ q.start ∧ e.stop ≥ q.start)) := by
        rw [← intersects_true_iff]
        simp [hi]
      have hsep : q.stop < e.start ∧ q.start < e.start := by omega
      have ihe := sweep_good rest e hwe
        (fun f hf => hwall f (List.mem_cons_of_mem e hf)) hpw'.2 hpw'.1
      obtain ⟨h, t, heq, hst⟩ := sweep_head rest e hpw'.1
      rw [heq] at ihe ⊢
      constructor
      · exact List.Chain'.cons (show qle q h by unfold qle; omega) ihe.1
      · refine List.Chain'.cons ?_ ihe.2
        have : ¬ (QuantumSet.intersects q h = true) := by
          rw [intersects_true_iff]
          omega
        simpa using this

/-- The sweep leaves an already-disjoint chain untouched. -/
theorem sweep_of_disjoint : ∀ (rest : List Quantum) (q : Quantum),
    List.Chain' (fun a c => QuantumSet.intersects a c = false) (q :: rest) →
    QuantumSet.sweep q rest = q :: rest
  | [], q, _ => rfl
  | e :: rest, q, hch => by
    have h := List.chain'_cons.mp hch
    rw [sweep_cons_of_not_intersects rest h.1,
      sweep_of_disjoint rest e h.2]

/-! ## Claims -/

/-- Claim C1: for every pair of Quanta `a` and `b`, `merge(a, b)` returns the
single-element sequence `[Quantum(min(a.start, b.start), max(a.stop, b.stop))]`
exactly when `intersects(a, b)` is true, and otherwise returns `[a, b]`
unchanged and in the given order; the minimum of the two starts is taken
even when `a.start > b.start`. -/
theorem merge_spec (a b : Quantum) :
    (QuantumSet.intersects a b = true →
      QuantumSet.merge a b = [⟨min a.start b.start, max a.stop b.stop⟩]) ∧
    (QuantumSet.intersects a b = false → QuantumSet.merge a b = [a, b]) :=
  ⟨fun h => merge_of_intersects h, fun h => merge_of_not_intersects h⟩

/-- Witness for C1 at `a = (5,10)`, `b = (3,6)`: the pair intersects with
`a.start > b.start`, and the merged Quantum takes the minimum start `3`. -/
theorem merge_spec_witness :
    QuantumSet.merge ⟨5, 10⟩ ⟨3, 6⟩ = [⟨3, 10⟩] := by
  have h := (merge_spec ⟨5, 10⟩ ⟨3, 6⟩).1 (by decide)
  simpa using h

/-- Claim C4: `intersects` is symmetric. -/
theorem intersects_symm (a b : Quantum) :
    QuantumSet.intersects a b = QuantumSet.intersects b a := by
  simp [QuantumSet.intersects, Bool.or_comm]

/-- Claim C5: `intersects(a, b)` is true exactly when
`(a.start ≤ b.start ∧ a.stop ≥ b.start) ∨ (b.start ≤ a.start ∧ b.stop ≥ a.start)`;
in particular touching endpoints (`a.stop = b.start`, with `a` starting at
or before `b`) count as intersecting, and degenerate Quanta with
`start = stop` participate under the same formula. -/
theorem intersects_formula (a b : Quantum) :
    (QuantumSet.intersects a b = true ↔
      ((a.start ≤ b.start ∧ a.stop ≥ b.start) ∨
        (b.start ≤ a.start ∧ b.stop ≥ a.start))) ∧
    (a.start ≤ b.start → a.stop = b.start →
      QuantumSet.intersects a b = true) := by
  refine ⟨intersects_true_iff a b, fun h1 h2 => ?_⟩
  rw [intersects_true_iff]
  omega

/-- Witness for C5 at the touching pair `(0,5)` and `(5,9)`. -/
theorem intersects_formula_witness :
    QuantumSet.intersects ⟨0, 5⟩ ⟨5, 9⟩ = true :=
  (intersects_formula ⟨0, 5⟩ ⟨5, 9⟩).2 (by decide) (by decide)

/-- Claim C3: on the reference input `(123,321), (2342933,82888329),
(2322,23421), (3232123423,238232482738), (2,12342)`, `disjoint()` returns
exactly `[2,23421], [2342933,82888329], [3232123423,238232482738]`, and the
total milliseconds of that result equal
`(23421-2) + (82888329-2342933) + (238232482738-3232123423)`. -/
theorem disjoint_scenario :
    (QuantumSet.disjointM false
        ⟨[⟨123, 321⟩, ⟨2342933, 82888329⟩, ⟨2322, 23421⟩,
          ⟨3232123423, 238232482738⟩, ⟨2, 12342⟩]⟩).1 =
      [⟨2, 23421⟩, ⟨2342933, 82888329⟩, ⟨3232123423, 238232482738⟩] ∧
    QuantumSet.millis
        [⟨2, 23421⟩, ⟨2342933, 82888329⟩, ⟨3232123423, 238232482738⟩] =
      (23421 - 2) + (82888329 - 2342933) + (238232482738 - 3232123423) :=
  ⟨by decide, by decide⟩

/-- Claim C8: the sort operation leaves the backing sequence exactly as it
was (the copy made by `slice()` is sorted instead), and the returned
sequence holds the same Quanta, as a permutation of the backing sequence. -/
theorem monotonic_frame (s : QuantumSet) :
    ((QuantumSet.monotonicM s).2)._set = s._set ∧
    ((QuantumSet.monotonicM s).1).Perm s._set :=
  ⟨rfl, List.perm_insertionSort qle s._set⟩

/-- Claim C10: `disjoint` (with either flag) leaves the backing sequence
unchanged; the returned cover is built in a local array. -/
theorem disjoint_frame (mono : Bool) (s : QuantumSet) :
    ((QuantumSet.disjointM mono s).2)._set = s._set :=
  rfl

/-- Claim C7: the sequence returned by the sort operation with the default
comparator is ordered non-decreasing by start. -/
theorem monotonic_sorted (s : QuantumSet) :
    List.Chain' (fun a c : Quantum => a.start ≤ c.start)
      ((QuantumSet.monotonicM s).1) := by
  have h : List.Pairwise qle (List.insertionSort qle s._set) :=
    List.sorted_insertionSort qle s._set
  exact List.Pairwise.chain' h

/-- Claim C6: applying `disjoint` (with either flag) to a collection that is
already ordered non-decreasing by start and whose adjacent elements do not
intersect returns the collection's elements unchanged. -/
theorem disjoint_idempotent (mono : Bool) (l : List Quantum)
    (hne : l ≠ [])
    (hsorted : List.Chain' qle l)
    (hdisj : List.Chain' (fun a c => QuantumSet.intersects a c = false) l) :
    QuantumSet.disjointL mono l = l := by
  have hpw : l.Pairwise qle := List.chain'_iff_pairwise.mp hsorted
  have hs : List.insertionSort qle l = l :=
    List.Sorted.insertionSort_eq hpw
  cases l with
  | nil => exact absurd rfl hne
  | cons q rest =>
    show QuantumSet.disjointL mono (q :: rest) = q :: rest
    unfold QuantumSet.disjointL
    cases mono with
    | true => exact sweep_of_disjoint rest q hdisj
    | false =>
      simp only [Bool.false_eq_true, if_false, hs]
      exact sweep_of_disjoint rest q hdisj

/-- Witness for C6 on the already-disjoint sorted collection
`[(0,1), (5,9)]`. -/
theorem disjoint_idempotent_witness :
    QuantumSet.disjointL false [⟨0, 1⟩, ⟨5, 9⟩] = [⟨0, 1⟩, ⟨5, 9⟩] :=
  disjoint_idempotent false [⟨0, 1⟩, ⟨5, 9⟩] (by decide)
    (List.Chain'.cons (by decide) (List.chain'_singleton _))
    (List.Chain'.cons (by decide) (List.chain'_singleton _))

/-- Counterexample to claim C2 as stated: the non-empty backing list
`[(5,3), (5,2), (5,7)]` is ordered non-decreasing by start (all starts are
`5`), yet `disjoint` — with the already-sorted flag true, and likewise with
it false — returns `[(5,3), (5,7)]`, whose two adjacent elements intersect.
(The quanta are malformed, with `stop < start`, which the code never
validates.) -/
theorem disjoint_adjacent_intersect_cex :
    List.Chain' qle [(⟨5, 3⟩ : Quantum), ⟨5, 2⟩, ⟨5, 7⟩] ∧
    QuantumSet.disjointL true [⟨5, 3⟩, ⟨5, 2⟩, ⟨5, 7⟩] = [⟨5, 3⟩, ⟨5, 7⟩] ∧
    QuantumSet.disjointL false [⟨5, 3⟩, ⟨5, 2⟩, ⟨5, 7⟩] = [⟨5, 3⟩, ⟨5, 7⟩] ∧
    ¬ List.Chain' (fun a c => QuantumSet.intersects a c = false)
        (QuantumSet.disjointL true [⟨5, 3⟩, ⟨5, 2⟩, ⟨5, 7⟩]) := by
  refine ⟨List.Chain'.cons (by decide)
      (List.Chain'.cons (by decide) (List.chain'_singleton _)),
    by decide, by decide, ?_⟩
  have h : QuantumSet.disjointL true [(⟨5, 3⟩ : Quantum), ⟨5, 2⟩, ⟨5, 7⟩] =
      [⟨5, 3⟩, ⟨5, 7⟩] := by decide
  rw [h]
  simp [List.chain'_cons, QuantumSet.intersects]

/-- Claim C2 (amended): for every non-empty collection of well-formed Quanta
(each with `start ≤ stop`), the output of `disjoint` — with the
already-sorted flag false, or with it true when the backing sequence is
already ordered non-decreasing by start — is ordered non-decreasing by
start, and no two adjacent output elements intersect. -/
theorem disjoint_wf_chain (mono : Bool) (l : List Quantum)
    (hne : l ≠ [])
    (hwf : ∀ e ∈ l, e.start ≤ e.stop)
    (hmono : mono = true → List.Chain' qle l) :
    List.Chain' qle (QuantumSet.disjointL mono l) ∧
      List.Chain' (fun a c => QuantumSet.intersects a c = false)
        (QuantumSet.disjointL mono l) := by
  cases mono with
  | true =>
    have hpw : l.Pairwise qle := List.chain'_iff_pairwise.mp (hmono rfl)
    cases l with
    | nil => exact absurd rfl hne
    | cons q rest =>
      have h : QuantumSet.disjointL true (q :: rest) =
          QuantumSet.sweep q rest := rfl
      rw [h]
      have hpw' := List.pairwise_cons.mp hpw
      exact sweep_good rest q (hwf q (List.mem_cons_self q rest))
        (fun f hf => hwf f (List.mem_cons_of_mem q hf)) hpw'.2 hpw'.1
  | false =>
    have hpw : (List.insertionSort qle l).Pairwise qle :=
      List.sorted_insertionSort qle l
    have hwf' : ∀ e ∈ List.insertionSort qle l, e.start ≤ e.stop :=
      fun e he => hwf e ((List.mem_insertionSort qle).mp he)
    cases hs : List.insertionSort qle l with
    | nil =>
      exact absurd (List.length_eq_zero.mp
        (by rw [← List.length_insertionSort qle l, hs]; rfl)) hne
    | cons q rest =>
      have h : QuantumSet.disjointL false l = QuantumSet.sweep q rest := by
        unfold QuantumSet.disjointL
        simp only [Bool.false_eq_true, if_false, hs]
      rw [h]
      rw [hs] at hpw hwf'
      have hpw' := List.pairwise_cons.mp hpw
      exact sweep_good rest q (hwf' q (List.mem_cons_self q rest))
        (fun f hf => hwf' f (List.mem_cons_of_mem q hf)) hpw'.2 hpw'.1

/-- Witness for the amended C2 on the well-formed collection
`[(1,4), (3,6)]` with the flag false. -/
theorem disjoint_wf_chain_witness :
    List.Chain' qle (QuantumSet.disjointL false [⟨1, 4⟩, ⟨3, 6⟩]) ∧
      List.Chain' (fun a c => QuantumSet.intersects a c = false)
        (QuantumSet.disjointL false [⟨1, 4⟩, ⟨3, 6⟩]) :=
  disjoint_wf_chain false [⟨1, 4⟩, ⟨3, 6⟩] (by decide) (by decide)
    (fun h => nomatch h)

/-- Counterexample to claim C9 as stated: a truthy non-numeric bound is not
substituted by `0` — constructing a Quantum with the nonempty string
`"a"` as its start stores that string itself. -/
theorem quantum_ctor_cex :
    (mkQuantumJS (.str ['a']) (.num 1)).start = .str ['a'] ∧
      JSValue.str ['a'] ≠ JSValue.num 0 := by
  exact ⟨rfl, by decide⟩

/-- Claim C9 (amended): constructing a Quantum with an omitted or otherwise
falsy bound (`undefined`, `null`, `false`, `0`, the empty string)
substitutes `0` for that bound rather than failing, while any truthy bound
— numeric or not — is stored unchanged. -/
theorem quantum_ctor_amended (a b : JSValue) :
    mkQuantumJS a b =
      ⟨if a.truthy then a else .num 0, if b.truthy then b else .num 0⟩ :=
  rfl
